import Mathlib

/-!
Shallow embedding of the `EmployeeHashTable` core of `src/main.cpp`
(Office-Management-Project): the FNV-1a hasher, the prime sizing helpers,
the chained hash table with its insert / rehash / find / update / search
operations, and the `Validator` rules consumed by the mutating operations.

Modelling conventions:
* `size_t` arithmetic in the hash function is `Nat` reduced modulo `2 ^ 64`
  at every multiplication, exactly where the C++ code relies on wrap-around.
* a `char` of a key is taken at its code point (`Char.toNat`); this is
  faithful on the ASCII domain of employee ids.
* `double` quantities are modelled exactly: `salary` as `Int` (every value
  the validator range admits and the claims use is integral and exactly
  representable), and the `load_factor() > MAX_LOAD_FACTOR` test as the
  exact rational comparison `4 * element_count > 3 * bucket_count`, which
  agrees with the IEEE-754 comparison for all table sizes below `2 ^ 52`.
* C++ exceptions (`EmployeeException` thrown by `validate`) are modelled by
  an `Except ValidationError` component of the result; the state component
  returned alongside an `.error` is the (unchanged) table, since the source
  throws before any mutation on those paths.
* the unbounded loops of `is_prime` / `next_prime` are given an explicit
  fuel parameter so that the definitions stay structurally recursive; the
  fuel is provably sufficient (see `noOddDivisor_spec` and
  `nextPrimeLoop_eq`), so the fueled functions compute exactly what the
  C++ loops compute.
-/

set_option autoImplicit false

/-! ### Validator (src/main.cpp lines 67-93) -/

def isUpperAZ (c : Char) : Bool := decide ('A' ≤ c ∧ c ≤ 'Z')

def isLowerAZ (c : Char) : Bool := decide ('a' ≤ c ∧ c ≤ 'z')

def isAlphaAZ (c : Char) : Bool := isUpperAZ c || isLowerAZ c

def isDigit09 (c : Char) : Bool := decide ('0' ≤ c ∧ c ≤ '9')

/-- The characters matched by the ECMAScript `\s` class (ASCII range):
space, tab, line feed, vertical tab, form feed, carriage return. -/
def wsChars : List Char := [' ', '\t', '\n', Char.ofNat 11, Char.ofNat 12, '\r']

def isWs (c : Char) : Bool := wsChars.contains c

/-- Character class of the name regex `[A-Za-z\s'-]`. -/
def isNameChar (c : Char) : Bool :=
  isAlphaAZ c || isWs c || c == Char.ofNat 39 || c == '-'

/-- Character class of the position regex `[A-Za-z\s-]`. -/
def isPosChar (c : Char) : Bool := isAlphaAZ c || isWs c || c == '-'

/-- Character class of the email local part `[a-zA-Z0-9._%+-]`. -/
def isEmailLocalChar (c : Char) : Bool :=
  isAlphaAZ c || isDigit09 c || c == '.' || c == '_' || c == '%' || c == '+' || c == '-'

/-- Character class of the email domain part `[a-zA-Z0-9.-]`. -/
def isEmailDomainChar (c : Char) : Bool :=
  isAlphaAZ c || isDigit09 c || c == '.' || c == '-'

/-- `Validator::isValidID`: full match of `[A-Z]{2}\d{4}`. -/
def isValidID (s : String) : Bool :=
  let cs := s.data
  decide (cs.length = 6) && (cs.take 2).all isUpperAZ && (cs.drop 2).all isDigit09

/-- `Validator::isValidName`: full match of `[A-Za-z\s'-]{2,50}`. -/
def isValidName (s : String) : Bool :=
  s.data.all isNameChar && decide (2 ≤ s.data.length) && decide (s.data.length ≤ 50)

/-- `Validator::isValidPosition`: full match of `[A-Za-z\s-]{2,30}`. -/
def isValidPosition (s : String) : Bool :=
  s.data.all isPosChar && decide (2 ≤ s.data.length) && decide (s.data.length ≤ 30)

/-- `Validator::isValidSalary`: `salary >= 0 && salary <= 10000000`. -/
def isValidSalary (salary : Int) : Bool :=
  decide (0 ≤ salary ∧ salary ≤ 10000000)

/-- `Validator::isValidEmail`: full match of
`[a-zA-Z0-9._%+-]+@[a-zA-Z0-9.-]+\.[a-zA-Z]{2,}`, expressed as the existence
of a decomposition witnessed by the position `i` of the `@` and the
position `j` of the dot that precedes the final alphabetic run. -/
def isValidEmail (s : String) : Bool :=
  let cs := s.data
  let n := cs.length
  (List.range n).any (fun i =>
    (List.range n).any (fun j =>
      decide (1 ≤ i) && decide (i + 2 ≤ j) && decide (j + 3 ≤ n) &&
      (cs.getD i (Char.ofNat 0) == '@') &&
      (cs.getD j (Char.ofNat 0) == '.') &&
      (cs.take i).all isEmailLocalChar &&
      ((cs.drop (i + 1)).take (j - i - 1)).all isEmailDomainChar &&
      (cs.drop (j + 1)).all isAlphaAZ))

/-- `Validator::isValidPhone`: full match of `\+?\d{10,15}`. -/
def isValidPhone (s : String) : Bool :=
  let cs := s.data
  let digits := if cs.headD (Char.ofNat 0) == '+' then cs.tail else cs
  digits.all isDigit09 && decide (10 ≤ digits.length) && decide (digits.length ≤ 15)

/-! ### Employee record (src/main.cpp lines 97-232) -/

inductive Department
  | engineering | hr | finance | marketing | operations | sales | unknown
deriving DecidableEq

inductive EmployeeStatus
  | active | inactive | onLeave | terminated
deriving DecidableEq

inductive AccessLevel
  | basic | admin
deriving DecidableEq

structure Employee where
  id : String
  firstName : String
  lastName : String
  position : String
  department : Department
  salary : Int
  email : String
  phone : String
  hireDate : Nat
  status : EmployeeStatus
  skills : List String
  managerId : String
  accessLevel : AccessLevel
deriving DecidableEq

/-- The messages of the `EmployeeException`s thrown by `Employee::validate`
(src/main.cpp lines 142-155). -/
inductive ValidationError
  | invalidID | invalidName | invalidPosition | invalidSalary | invalidEmail | invalidPhone
deriving DecidableEq

instance exceptDecEq {e a : Type} [DecidableEq e] [DecidableEq a] :
    DecidableEq (Except e a) := fun x y =>
  match x, y with
  | .error a1, .error a2 =>
    if h : a1 = a2 then isTrue (by rw [h])
    else isFalse (fun hc => h (by injection hc))
  | .ok a1, .ok a2 =>
    if h : a1 = a2 then isTrue (by rw [h])
    else isFalse (fun hc => h (by injection hc))
  | .error _, .ok _ => isFalse (fun hc => Except.noConfusion hc)
  | .ok _, .error _ => isFalse (fun hc => Except.noConfusion hc)

/-- `Employee::validate`, checks in source order; `.error e` models the
exception thrown for the first failing field. -/
def validateEmp (e : Employee) : Except ValidationError Unit :=
  if !isValidID e.id then .error .invalidID
  else if !isValidName e.firstName || !isValidName e.lastName then .error .invalidName
  else if !isValidPosition e.position then .error .invalidPosition
  else if !isValidSalary e.salary then .error .invalidSalary
  else if !e.email.isEmpty && !isValidEmail e.email then .error .invalidEmail
  else if !e.phone.isEmpty && !isValidPhone e.phone then .error .invalidPhone
  else .ok ()

/-! ### Search criteria (src/main.cpp lines 236-247) -/

structure SearchCriteria where
  id : Option String := none
  firstName : Option String := none
  lastName : Option String := none
  position : Option String := none
  department : Option Department := none
  minSalary : Option Int := none
  maxSalary : Option Int := none
  status : Option EmployeeStatus := none
  skill : Option String := none
  caseSensitive : Bool := false

/-- `std::string::find(needle) != npos`: substring containment. -/
def hasSubstrL (needle : List Char) : List Char → Bool
  | [] => needle.isEmpty
  | c :: rest => needle.isPrefixOf (c :: rest) || hasSubstrL needle rest

def hasSubstr (hay needle : String) : Bool := hasSubstrL needle.data hay.data

/-- Per-character `::tolower` of the C locale. -/
def strLower (s : String) : String := String.mk (s.data.map Char.toLower)

/-- The conjunction of optional predicates evaluated by
`EmployeeHashTable::search` on one employee (src/main.cpp lines 482-524). -/
def matchesCriteria (c : SearchCriteria) (emp : Employee) : Bool :=
  (match c.id with
   | none => true
   | some v => emp.id == v) &&
  (match c.firstName with
   | none => true
   | some v =>
     if c.caseSensitive then hasSubstr emp.firstName v
     else hasSubstr (strLower emp.firstName) (strLower v)) &&
  (match c.lastName with
   | none => true
   | some v =>
     if c.caseSensitive then hasSubstr emp.lastName v
     else hasSubstr (strLower emp.lastName) (strLower v)) &&
  (match c.position with
   | none => true
   | some v =>
     if c.caseSensitive then hasSubstr emp.position v
     else hasSubstr (strLower emp.position) (strLower v)) &&
  (match c.department with
   | none => true
   | some v => emp.department == v) &&
  (match c.minSalary with
   | none => true
   | some v => !decide (emp.salary < v)) &&
  (match c.maxSalary with
   | none => true
   | some v => !decide (v < emp.salary)) &&
  (match c.status with
   | none => true
   | some v => emp.status == v) &&
  (match c.skill with
   | none => true
   | some v => emp.skills.any (fun sk =>
       if c.caseSensitive then hasSubstr sk v
       else hasSubstr (strLower sk) (strLower v)))

/-! ### The hash table (src/main.cpp lines 251-587) -/

structure EmployeeHashTable where
  table : List (List Employee)
  bucket_count : Nat
  element_count : Nat
deriving DecidableEq

namespace EmployeeHashTable

def U64 : Nat := 2 ^ 64

def FNV_OFFSET_BASIS : Nat := 14695981039346656037

def FNV_PRIME : Nat := 1099511628211

/-- The FNV-1a accumulation loop of `EmployeeHashTable::hash`
(src/main.cpp lines 266-276), before the reduction `mod bucket_count`. -/
def fnv1a (key : String) : Nat :=
  key.data.foldl (fun h c => ((h ^^^ c.toNat) * FNV_PRIME) % U64) FNV_OFFSET_BASIS

/-- `EmployeeHashTable::hash`: FNV-1a reduced modulo the bucket count. -/
def hashIdx (bc : Nat) (key : String) : Nat := fnv1a key % bc

/-- The loop body of `EmployeeHashTable::is_prime`
(`for (i = 3; i * i <= n; i += 2) if (n % i == 0) return false`),
with an explicit fuel bounding the remaining iterations. -/
def noOddDivisor (n : Nat) : Nat → Nat → Bool
  | _, 0 => true
  | i, fuel + 1 =>
    if i * i ≤ n then
      if n % i == 0 then false else noOddDivisor n (i + 2) fuel
    else true

/-- `EmployeeHashTable::is_prime` (src/main.cpp lines 278-287); fuel `n`
bounds the trial-division loop, which runs at most `n / 2` times. -/
def is_prime (n : Nat) : Bool :=
  if n < 2 then false
  else if n == 2 then true
  else if n % 2 == 0 then false
  else noOddDivisor n 3 n

/-- The loop of `EmployeeHashTable::next_prime`
(`while (!is_prime(n)) ++n; return n`), with an explicit fuel. -/
def nextPrimeLoop : Nat → Nat → Nat
  | 0, n => n
  | fuel + 1, n => if is_prime n then n else nextPrimeLoop fuel (n + 1)

/-- `EmployeeHashTable::next_prime` (src/main.cpp lines 289-292); by
Bertrand's postulate a prime is found within `2 * n + 3` probes, so the
fueled loop returns exactly the smallest prime `≥ n` (see `next_prime_spec`). -/
def next_prime (n : Nat) : Nat := nextPrimeLoop (2 * n + 3) n

/-- The constructor `EmployeeHashTable(initial_bucket_count)`
(src/main.cpp lines 344-349). -/
def mkTable (initial_bucket_count : Nat) : EmployeeHashTable :=
  let bc := next_prime initial_bucket_count
  { table := List.replicate bc [], bucket_count := bc, element_count := 0 }

/-- `EmployeeHashTable::insert_internal` (src/main.cpp lines 320-339):
duplicate scan of the home bucket, then insertion at the chain head. -/
def insert_internal (t : EmployeeHashTable) (emp : Employee) :
    Bool × EmployeeHashTable :=
  let index := hashIdx t.bucket_count emp.id
  let chain := t.table.getD index []
  if chain.any (fun e => e.id == emp.id) then
    (false, t)
  else
    (true,
     { t with
       table := t.table.set index (emp :: chain),
       element_count := t.element_count + 1 })

/-- `EmployeeHashTable::rehash` (src/main.cpp lines 294-318): grow to
`next_prime(bucket_count * 2)`, reset the counters, and reinsert every node
of the old table (buckets in order, each chain head to tail). -/
def rehash (t : EmployeeHashTable) : EmployeeHashTable :=
  let new_bc := next_prime (t.bucket_count * 2)
  let fresh : EmployeeHashTable :=
    { table := List.replicate new_bc [], bucket_count := new_bc, element_count := 0 }
  t.table.flatten.foldl (fun acc e => (insert_internal acc e).2) fresh

/-- `EmployeeHashTable::insert` (src/main.cpp lines 381-405): validate
(rethrowing on failure), insert, and rehash synchronously when the load
factor exceeds `MAX_LOAD_FACTOR = 0.75`. -/
def insert (t : EmployeeHashTable) (emp : Employee) :
    Except ValidationError Bool × EmployeeHashTable :=
  match validateEmp emp with
  | .error err => (.error err, t)
  | .ok _ =>
    let r := insert_internal t emp
    if r.1 then
      if 4 * r.2.element_count > 3 * r.2.bucket_count then (.ok true, rehash r.2)
      else (.ok true, r.2)
    else (.ok false, r.2)

/-- `EmployeeHashTable::find` (src/main.cpp lines 433-447): linear scan of
the home bucket, first node whose id equals the key. -/
def find (t : EmployeeHashTable) (key : String) : Option Employee :=
  (t.table.getD (hashIdx t.bucket_count key) []).find? (fun e => e.id == key)

/-- The chain walk of `EmployeeHashTable::update` (src/main.cpp lines
452-468): at the first node whose id equals the key, validate the new
record (throwing on failure) and overwrite the stored record wholesale. -/
def updateChain (key : String) (new_emp : Employee) :
    List Employee → Except ValidationError (Bool × List Employee)
  | [] => .ok (false, [])
  | e :: rest =>
    if e.id == key then
      match validateEmp new_emp with
      | .error err => .error err
      | .ok _ => .ok (true, new_emp :: rest)
    else
      match updateChain key new_emp rest with
      | .error err => .error err
      | .ok r => .ok (r.1, e :: r.2)

/-- `EmployeeHashTable::update` (src/main.cpp lines 449-472). -/
def update (t : EmployeeHashTable) (key : String) (new_emp : Employee) :
    Except ValidationError Bool × EmployeeHashTable :=
  let index := hashIdx t.bucket_count key
  match updateChain key new_emp (t.table.getD index []) with
  | .error err => (.error err, t)
  | .ok r => (.ok r.1, { t with table := t.table.set index r.2 })

/-- `EmployeeHashTable::search` (src/main.cpp lines 474-536): scan every
bucket's chain in order and collect copies of the matching records. -/
def search (t : EmployeeHashTable) (criteria : SearchCriteria) : List Employee :=
  t.table.flatten.filter (matchesCriteria criteria)

/-- `EmployeeHashTable::get_all` (src/main.cpp lines 538-541): search with
default-constructed (empty) criteria. -/
def get_all (t : EmployeeHashTable) : List Employee :=
  search t {}

/-- `EmployeeHashTable::size` (src/main.cpp lines 547-550). -/
def size (t : EmployeeHashTable) : Nat := t.element_count

/-- All keys stored in the table, in bucket-scan order. -/
def tableKeys (t : EmployeeHashTable) : List String :=
  t.table.flatten.map (fun e => e.id)

/-- Representation invariant of every reachable table state: the bucket
array has `bucket_count` (≥ 2) entries, `element_count` counts the nodes,
keys are globally unique, and every node sits in the bucket its key hashes
to under the current bucket count. -/
def WF (t : EmployeeHashTable) : Prop :=
  t.table.length = t.bucket_count ∧
  2 ≤ t.bucket_count ∧
  t.element_count = t.table.flatten.length ∧
  (tableKeys t).Nodup ∧
  ∀ i < t.table.length, ∀ e ∈ t.table.getD i [], hashIdx t.bucket_count e.id = i

instance (t : EmployeeHashTable) : Decidable (WF t) := by
  unfold WF; infer_instance

/-- Folding the public `insert` over a list of records, keeping the table
state (a thrown validation error leaves the table unchanged, as in the
source). -/
def applyInserts (t : EmployeeHashTable) (emps : List Employee) : EmployeeHashTable :=
  emps.foldl (fun acc e => (insert acc e).2) t

end EmployeeHashTable

/-! ### Lock usage of the public member functions (src/main.cpp lines 381-586) -/

inductive TableOp
  | insertOp | removeOp | findOp | updateOp | searchOp | sizeOp | loadFactorOp | statisticsOp
deriving DecidableEq

/-- Transcribed from `src/main.cpp`: which public member function bodies
construct a `std::lock_guard<std::mutex>` on `table_mutex` for their whole
duration (`insert` line 382, `remove` line 408, `find` line 434, `update`
line 450, `search` line 475, `size` line 548, `get_statistics` line 553).
`load_factor` (lines 543-545) reads `element_count` and `bucket_count`
without locking — it is called from inside `insert`'s critical section,
where taking the non-recursive mutex again would deadlock.  The private
`rehash` runs inside `insert`'s critical section. -/
def acquiresTableLock : TableOp → Bool
  | .insertOp => true
  | .removeOp => true
  | .findOp => true
  | .updateOp => true
  | .searchOp => true
  | .sizeOp => true
  | .loadFactorOp => false
  | .statisticsOp => true

/-! ### Concrete records and tables used as witnesses -/

/-- A valid employee record (id `AB1234`). -/
def empA : Employee :=
  { id := "AB1234", firstName := "John", lastName := "Smith",
    position := "Engineer", department := .engineering, salary := 50000,
    email := "", phone := "", hireDate := 0, status := .active,
    skills := [], managerId := "", accessLevel := .basic }

/-- A second valid employee record (id `CD5678`). -/
def empB : Employee :=
  { id := "CD5678", firstName := "Jane", lastName := "Doe",
    position := "Manager", department := .sales, salary := 60000,
    email := "", phone := "", hireDate := 0, status := .active,
    skills := [], managerId := "", accessLevel := .admin }

/-- A third valid employee record (id `EF9012`), used to overwrite a node
under a different key. -/
def empC : Employee :=
  { id := "EF9012", firstName := "Alice", lastName := "Jones",
    position := "Director", department := .hr, salary := 70000,
    email := "", phone := "", hireDate := 0, status := .active,
    skills := [], managerId := "", accessLevel := .basic }

/-- `empA` with a malformed id: rejected by `Validator::isValidID`. -/
def badEmp : Employee := { empA with id := "bad" }

/-- A record with `empA`'s key but different field values (a duplicate). -/
def empA2 : Employee := { empA with firstName := "Johnny", salary := 99000 }

def exTable0 : EmployeeHashTable := EmployeeHashTable.mkTable 17

/-- A small reachable table holding `empA` and `empB`. -/
def exTable1 : EmployeeHashTable := (exTable0.insert empA).2

def exTable : EmployeeHashTable := (exTable1.insert empB).2

def digitChar (n : Nat) : Char := Char.ofNat (48 + n)

/-- The `n`-th of thirteen pairwise distinct valid records
(ids `AA0001` … `AA0013`). -/
def empN (n : Nat) : Employee :=
  { id := String.mk ['A', 'A', '0', '0', digitChar (n / 10), digitChar (n % 10)],
    firstName := "John", lastName := "Smith", position := "Engineer",
    department := .engineering, salary := 50000, email := "", phone := "",
    hireDate := 0, status := .active, skills := [], managerId := "",
    accessLevel := .basic }

def emps13 : List Employee := (List.range 13).map (fun n => empN (n + 1))

/-! ### Correctness of the fueled prime helpers -/

namespace EmployeeHashTable

/-- With enough fuel, the trial-division loop returns `true` iff no probed
divisor `i, i+2, i+4, …` with square at most `n` divides `n`. -/
theorem noOddDivisor_spec (n : Nat) :
    ∀ fuel i, n < (i + 2 * fuel) * (i + 2 * fuel) →
      (noOddDivisor n i fuel = true ↔
        ∀ k, (i + 2 * k) * (i + 2 * k) ≤ n → n % (i + 2 * k) ≠ 0) := by
  intro fuel
  induction fuel with
  | zero =>
    intro i h
    simp only [Nat.mul_zero, Nat.add_zero] at h
    simp only [noOddDivisor, true_iff]
    intro k hk
    exfalso
    have hmono : i * i ≤ (i + 2 * k) * (i + 2 * k) :=
      Nat.mul_le_mul (Nat.le_add_right _ _) (Nat.le_add_right _ _)
    omega
  | succ fuel ih =>
    intro i h
    by_cases hin : i * i ≤ n
    · by_cases hmod : n % i = 0
      · have hL : noOddDivisor n i (fuel + 1) = false := by
          simp [noOddDivisor, hin, hmod]
        rw [hL]
        constructor
        · intro hc; exact absurd hc (by simp)
        · intro hall
          exfalso
          have h1 : (i + 2 * 0) * (i + 2 * 0) ≤ n := by
            simpa using hin
          have h2 := hall 0 h1
          simp only [Nat.mul_zero, Nat.add_zero] at h2
          exact h2 hmod
      · have hL : noOddDivisor n i (fuel + 1) = noOddDivisor n (i + 2) fuel := by
          simp [noOddDivisor, hin, hmod]
        have hfuel2 : n < (i + 2 + 2 * fuel) * (i + 2 + 2 * fuel) := by
          have e : i + 2 + 2 * fuel = i + 2 * (fuel + 1) := by omega
          rw [e]; exact h
        rw [hL, ih (i + 2) hfuel2]
        constructor
        · intro hall k hk hdvd
          rcases k with _ | k
          · simp only [Nat.mul_zero, Nat.add_zero] at hk hdvd
            exact hmod hdvd
          · have hk2 : (i + 2 + 2 * k) * (i + 2 + 2 * k) ≤ n := by
              have : i + 2 + 2 * k = i + 2 * (k + 1) := by omega
              rw [this]; exact hk
            have := hall k hk2
            have harg : i + 2 + 2 * k = i + 2 * (k + 1) := by omega
            rw [harg] at this
            exact this hdvd
        · intro hall k hk hdvd
          have harg : i + 2 + 2 * k = i + 2 * (k + 1) := by omega
          rw [harg] at hk hdvd
          exact hall (k + 1) hk hdvd
    · have hL : noOddDivisor n i (fuel + 1) = true := by
        simp [noOddDivisor, hin]
      rw [hL]
      simp only [true_iff]
      intro k hk
      exfalso
      have hmono : i * i ≤ (i + 2 * k) * (i + 2 * k) :=
        Nat.mul_le_mul (Nat.le_add_right _ _) (Nat.le_add_right _ _)
      omega

/-- The fueled `is_prime` decides primality. -/
theorem is_prime_iff (n : Nat) : is_prime n = true ↔ Nat.Prime n := by
  by_cases h2 : n < 2
  · have hL : is_prime n = false := by simp [is_prime, h2]
    rw [hL]
    simp only [Bool.false_eq_true, false_iff]
    intro hp
    exact absurd hp.two_le (by omega)
  · by_cases he : n = 2
    · subst he
      constructor
      · intro _; exact Nat.prime_two
      · intro _; rfl
    · by_cases hev : n % 2 = 0
      · have hL : is_prime n = false := by
          simp [is_prime, h2, he, hev]
        rw [hL]
        simp only [Bool.false_eq_true, false_iff]
        intro hp
        have hd : (2 : Nat) ∣ n := Nat.dvd_of_mod_eq_zero hev
        have := hp.eq_one_or_self_of_dvd 2 hd
        omega
      · have hL : is_prime n = noOddDivisor n 3 n := by
          simp [is_prime, h2, he, hev]
        have hfuel : n < (3 + 2 * n) * (3 + 2 * n) := by nlinarith
        rw [hL, noOddDivisor_spec n n 3 hfuel]
        constructor
        · intro hall
          rw [Nat.prime_def_le_sqrt]
          refine ⟨by omega, ?_⟩
          intro m hm2 hmsqrt hdvd
          have hmm : m * m ≤ n := Nat.le_sqrt.mp hmsqrt
          rcases Nat.even_or_odd m with hme | hmo
          · obtain ⟨j, hj⟩ := hme
            have h2n : (2 : Nat) ∣ n := dvd_trans ⟨j, by omega⟩ hdvd
            have := Nat.mod_eq_zero_of_dvd h2n
            omega
          · obtain ⟨j, hj⟩ := hmo
            have hj1 : 1 ≤ j := by omega
            have hm' : 3 + 2 * (j - 1) = m := by omega
            have := hall (j - 1) (by rw [hm']; exact hmm)
            rw [hm'] at this
            exact this (Nat.dvd_iff_mod_eq_zero.mp hdvd)
        · intro hp k hk hdvd
          have hd : (3 + 2 * k) ∣ n :=
            Nat.dvd_iff_mod_eq_zero.mpr hdvd
          have := hp.eq_one_or_self_of_dvd _ hd
          rcases this with h1 | hself
          · omega
          · rw [hself] at hk
            nlinarith [hp.two_le]

end EmployeeHashTable

namespace EmployeeHashTable

/-- The fueled upward search returns the least prime probe, provided the
fuel covers the distance to it. -/
theorem nextPrimeLoop_eq :
    ∀ fuel n k0, k0 < fuel → is_prime (n + k0) = true →
      (∀ j, j < k0 → is_prime (n + j) = false) →
      nextPrimeLoop fuel n = n + k0 := by
  intro fuel
  induction fuel with
  | zero => intro n k0 h _ _; omega
  | succ fuel ih =>
    intro n k0 hlt hp hmin
    by_cases h0 : is_prime n
    · have hk0 : k0 = 0 := by
        by_contra hk
        have hj := hmin 0 (by omega)
        simp only [Nat.add_zero] at hj
        rw [hj] at h0
        exact absurd h0 (by simp)
      subst hk0
      simp [nextPrimeLoop, h0]
    · have hL : nextPrimeLoop (fuel + 1) n = nextPrimeLoop fuel (n + 1) := by
        simp [nextPrimeLoop, h0]
      have hk0 : k0 ≠ 0 := by
        intro hz
        subst hz
        simp only [Nat.add_zero] at hp
        exact h0 hp
      have hstep := ih (n + 1) (k0 - 1) (by omega)
        (by rw [show n + 1 + (k0 - 1) = n + k0 by omega]; exact hp)
        (fun j hj => by
          rw [show n + 1 + j = n + (j + 1) by omega]
          exact hmin (j + 1) (by omega))
      rw [hL, hstep]
      omega

/-- `next_prime n` is the smallest prime greater than or equal to `n`;
in particular the fuel `2 * n + 3` always suffices. -/
theorem next_prime_spec (n : Nat) :
    Nat.Prime (next_prime n) ∧ n ≤ next_prime n ∧
      ∀ m, n ≤ m → Nat.Prime m → next_prime n ≤ m := by
  have hex : ∃ k, is_prime (n + k) = true := by
    obtain ⟨p, hple, hp⟩ := Nat.exists_infinite_primes n
    exact ⟨p - n, by rw [show n + (p - n) = p by omega]; exact (is_prime_iff p).mpr hp⟩
  have hk0p : is_prime (n + Nat.find hex) = true := Nat.find_spec hex
  have hk0min : ∀ j, j < Nat.find hex → is_prime (n + j) = false := by
    intro j hj
    have := Nat.find_min hex hj
    simpa using this
  have hbound : Nat.find hex < 2 * n + 3 := by
    rcases Nat.eq_zero_or_pos n with h0 | hpos
    · subst h0
      have h2 : is_prime (0 + 2) = true := by decide
      have := Nat.find_min' hex h2
      omega
    · obtain ⟨p, hp, hlt, hle⟩ := Nat.exists_prime_lt_and_le_two_mul n (by omega)
      have hip : is_prime (n + (p - n)) = true := by
        rw [show n + (p - n) = p by omega]
        exact (is_prime_iff p).mpr hp
      have := Nat.find_min' hex hip
      omega
  have heq : next_prime n = n + Nat.find hex :=
    nextPrimeLoop_eq (2 * n + 3) n (Nat.find hex) hbound hk0p hk0min
  refine ⟨?_, ?_, ?_⟩
  · rw [heq]; exact (is_prime_iff _).mp hk0p
  · rw [heq]; omega
  · intro m hnm hm
    have hip : is_prime (n + (m - n)) = true := by
      rw [show n + (m - n) = m by omega]
      exact (is_prime_iff m).mpr hm
    have := Nat.find_min' hex hip
    omega

/-- The bucket count produced by `next_prime` is at least 2. -/
theorem next_prime_two_le (n : Nat) : 2 ≤ next_prime n :=
  (next_prime_spec n).1.two_le

/-- The argument is a lower bound of `next_prime`. -/
theorem le_next_prime (n : Nat) : n ≤ next_prime n :=
  (next_prime_spec n).2.1

end EmployeeHashTable

/-! ### List-level helper lemmas for the bucket array -/

namespace EmployeeHashTable

theorem getD_set_self {α : Type} (l : List α) (i : Nat) (a d : α) (h : i < l.length) :
    (l.set i a).getD i d = a := by
  rw [List.getD_eq_getElem?_getD, List.getElem?_set_self', List.getElem?_eq_getElem h]
  rfl

theorem getD_set_ne {α : Type} (l : List α) {i j : Nat} (a d : α) (h : i ≠ j) :
    (l.set i a).getD j d = l.getD j d := by
  rw [List.getD_eq_getElem?_getD, List.getElem?_set_ne h, ← List.getD_eq_getElem?_getD]

theorem set_getD_self {α : Type} (l : List α) (i : Nat) (d : α) :
    i < l.length → l.set i (l.getD i d) = l := by
  induction l generalizing i with
  | nil => intro h; exact absurd h (by simp)
  | cons hd tl ih =>
    intro h
    cases i with
    | zero => simp
    | succ i =>
      simp only [List.getD_cons_succ, List.set_cons_succ]
      rw [ih i (by simpa using h)]

theorem getD_mem_flatten {α : Type} {l : List (List α)} {i : Nat} {e : α}
    (h : e ∈ l.getD i []) : e ∈ l.flatten := by
  by_cases hi : i < l.length
  · rw [List.getD_eq_getElem?_getD, List.getElem?_eq_getElem hi] at h
    exact List.mem_flatten.mpr ⟨l[i], List.getElem_mem hi, h⟩
  · rw [List.getD_eq_default _ _ (by omega)] at h
    simp at h

theorem mem_flatten_getD {α : Type} {l : List (List α)} {e : α}
    (h : e ∈ l.flatten) : ∃ i, i < l.length ∧ e ∈ l.getD i [] := by
  obtain ⟨chain, hchain, he⟩ := List.mem_flatten.mp h
  obtain ⟨i, hi, hieq⟩ := List.getElem_of_mem hchain
  refine ⟨i, hi, ?_⟩
  rw [List.getD_eq_getElem?_getD, List.getElem?_eq_getElem hi]
  simp only [Option.getD_some]
  rw [hieq]
  exact he

theorem flatten_set_cons_perm {α : Type} (l : List (List α)) (i : Nat) (a : α)
    (h : i < l.length) :
    ((l.set i (a :: l.getD i [])).flatten).Perm (a :: l.flatten) := by
  induction l generalizing i with
  | nil => exact absurd h (by simp)
  | cons hd tl ih =>
    cases i with
    | zero =>
      simp only [List.getD_cons_zero, List.set_cons_zero, List.flatten_cons]
      exact List.Perm.refl _
    | succ i =>
      have h' : i < tl.length := by simpa using h
      simp only [List.getD_cons_succ, List.set_cons_succ, List.flatten_cons]
      exact (List.Perm.append_left hd (ih i h')).trans List.perm_middle

theorem flatten_replicate_nil {α : Type} (n : Nat) :
    (List.replicate n ([] : List α)).flatten = [] := by
  induction n with
  | zero => rfl
  | succ n ih => simp [List.replicate, ih]

theorem getD_replicate_nil {α : Type} (n i : Nat) :
    (List.replicate n ([] : List α)).getD i [] = [] := by
  by_cases h : i < n
  · rw [List.getD_eq_getElem?_getD, List.getElem?_eq_getElem (by simpa using h)]
    simp
  · rw [List.getD_eq_default _ _ (by simpa using h)]

end EmployeeHashTable

/-! ### The representation invariant across the operations -/

namespace EmployeeHashTable

theorem WF_mkTable (n : Nat) : WF (mkTable n) := by
  refine ⟨by simp [mkTable], next_prime_two_le n, ?_, ?_, ?_⟩
  · simp [mkTable, flatten_replicate_nil]
  · simp [tableKeys, mkTable, flatten_replicate_nil]
  · intro i _ e he
    rw [show (mkTable n).table = List.replicate (next_prime n) [] from rfl,
      getD_replicate_nil] at he
    exact absurd he (by simp)

theorem hashIdx_lt {bc : Nat} (h : 0 < bc) (key : String) : hashIdx bc key < bc :=
  Nat.mod_lt _ h

/-- The duplicate scan of `insert_internal` fires exactly on the keys
already present in a well-formed table. -/
theorem insert_internal_fst_false_iff {t : EmployeeHashTable} {emp : Employee}
    (hWF : WF t) :
    (insert_internal t emp).1 = false ↔ emp.id ∈ tableKeys t := by
  obtain ⟨hlen, hbc, _, _, hplace⟩ := hWF
  constructor
  · intro hfalse
    unfold insert_internal at hfalse
    by_cases hany :
        (t.table.getD (hashIdx t.bucket_count emp.id) []).any (fun e => e.id == emp.id)
    · obtain ⟨e, he, heq⟩ := List.any_eq_true.mp hany
      have : e.id = emp.id := by simpa using heq
      rw [← this]
      exact List.mem_map_of_mem _ (getD_mem_flatten he)
    · simp only [hany] at hfalse
      exact absurd hfalse (by simp)
  · intro hmem
    obtain ⟨e, hemem, heid⟩ := List.mem_map.mp hmem
    obtain ⟨i, hi, hgetD⟩ := mem_flatten_getD hemem
    have hieq : hashIdx t.bucket_count e.id = i := hplace i hi e hgetD
    have hchain : e ∈ t.table.getD (hashIdx t.bucket_count emp.id) [] := by
      rw [← heid, hieq]
      exact hgetD
    have hany :
        (t.table.getD (hashIdx t.bucket_count emp.id) []).any (fun x => x.id == emp.id)
          = true :=
      List.any_eq_true.mpr ⟨e, hchain, by simpa using heid⟩
    unfold insert_internal
    simp only [hany]
    rfl

theorem insert_internal_snd_of_false {t : EmployeeHashTable} {emp : Employee}
    (h : (insert_internal t emp).1 = false) : (insert_internal t emp).2 = t := by
  unfold insert_internal at *
  by_cases hany :
      (t.table.getD (hashIdx t.bucket_count emp.id) []).any (fun e => e.id == emp.id)
  · simp only [hany]
    rfl
  · simp only [hany] at h
    exact absurd h (by simp)

/-- A successful `insert_internal` adds the record at the head of its home
bucket: the bucket count is unchanged, the node count grows by one, the
stored multiset gains exactly the new record, and well-formedness is kept. -/
theorem insert_internal_true_spec {t : EmployeeHashTable} {emp : Employee}
    (hWF : WF t) (h : (insert_internal t emp).1 = true) :
    (insert_internal t emp).2.bucket_count = t.bucket_count ∧
    (insert_internal t emp).2.element_count = t.element_count + 1 ∧
    ((insert_internal t emp).2.table.flatten).Perm (emp :: t.table.flatten) ∧
    WF (insert_internal t emp).2 := by
  have hfresh : emp.id ∉ tableKeys t := by
    intro hmem
    rw [← insert_internal_fst_false_iff hWF] at hmem
    rw [h] at hmem
    exact absurd hmem (by simp)
  obtain ⟨hlen, hbc, hcount, hnodup, hplace⟩ := hWF
  have hany :
      (t.table.getD (hashIdx t.bucket_count emp.id) []).any (fun e => e.id == emp.id)
        = false := by
    by_cases hc :
        (t.table.getD (hashIdx t.bucket_count emp.id) []).any (fun e => e.id == emp.id)
    · exfalso
      apply hfresh
      rw [← insert_internal_fst_false_iff ⟨hlen, hbc, hcount, hnodup, hplace⟩]
      unfold insert_internal
      simp only [hc]
      rfl
    · simpa using hc
  have hsnd : (insert_internal t emp).2 =
      { t with
        table := t.table.set (hashIdx t.bucket_count emp.id)
          (emp :: t.table.getD (hashIdx t.bucket_count emp.id) []),
        element_count := t.element_count + 1 } := by
    unfold insert_internal
    simp only [hany]
    rfl
  have hidx : hashIdx t.bucket_count emp.id < t.table.length := by
    rw [hlen]
    exact hashIdx_lt (by omega) emp.id
  have hperm :
      ((insert_internal t emp).2.table.flatten).Perm (emp :: t.table.flatten) := by
    rw [hsnd]
    exact flatten_set_cons_perm t.table _ emp hidx
  have hkeysperm : (tableKeys (insert_internal t emp).2).Perm (emp.id :: tableKeys t) := by
    unfold tableKeys
    simpa using List.Perm.map (fun e => e.id) hperm
  refine ⟨by rw [hsnd], by rw [hsnd], hperm, ?_, ?_, ?_, ?_, ?_⟩
  · rw [hsnd]
    simpa using hlen
  · rw [hsnd]
    exact hbc
  · have h1 : (insert_internal t emp).2.element_count = t.element_count + 1 := by
      rw [hsnd]
    have h2 : (insert_internal t emp).2.table.flatten.length
        = t.table.flatten.length + 1 := by
      simpa using hperm.length_eq
    rw [h1, h2, hcount]
  · rw [hkeysperm.nodup_iff]
    exact List.nodup_cons.mpr ⟨hfresh, hnodup⟩
  · intro i hi e he
    rw [hsnd] at hi he ⊢
    simp only [List.length_set] at hi
    by_cases hieq : hashIdx t.bucket_count emp.id = i
    · subst hieq
      rw [getD_set_self _ _ _ _ hidx] at he
      rcases List.mem_cons.mp he with rfl | hold
      · rfl
      · exact hplace _ hidx e hold
    · rw [getD_set_ne _ _ _ hieq] at he
      exact hplace i hi e he

end EmployeeHashTable

namespace EmployeeHashTable

/-- Reinserting a list of records with globally fresh, pairwise distinct
keys (the situation of `rehash`) succeeds for every record and produces a
well-formed table holding exactly the old plus the new records. -/
theorem foldl_insert_internal_spec :
    ∀ (L : List Employee) (t : EmployeeHashTable), WF t →
      (L.map (fun e => e.id) ++ tableKeys t).Nodup →
      WF (L.foldl (fun acc e => (insert_internal acc e).2) t) ∧
      (L.foldl (fun acc e => (insert_internal acc e).2) t).bucket_count
        = t.bucket_count ∧
      (L.foldl (fun acc e => (insert_internal acc e).2) t).element_count
        = t.element_count + L.length ∧
      ((L.foldl (fun acc e => (insert_internal acc e).2) t).table.flatten).Perm
        (L ++ t.table.flatten) := by
  intro L
  induction L with
  | nil =>
    intro t hWF _
    exact ⟨hWF, rfl, rfl, by simp⟩
  | cons e L ih =>
    intro t hWF hnodup
    simp only [List.map_cons, List.cons_append, List.nodup_cons] at hnodup
    obtain ⟨hfresh, hnodup⟩ := hnodup
    have hfresh' : e.id ∉ tableKeys t := fun hc => hfresh (List.mem_append_right _ hc)
    have hfst : (insert_internal t e).1 = true := by
      by_cases hb : (insert_internal t e).1
      · exact hb
      · exact absurd ((insert_internal_fst_false_iff hWF).mp (by simpa using hb)) hfresh'
    obtain ⟨hbc1, hec1, hperm1, hWF1⟩ := insert_internal_true_spec hWF hfst
    have hkeys1 : (tableKeys (insert_internal t e).2).Perm (e.id :: tableKeys t) := by
      unfold tableKeys
      simpa using List.Perm.map (fun x => x.id) hperm1
    have hnodup1 : (L.map (fun x => x.id) ++ tableKeys (insert_internal t e).2).Nodup := by
      have hp : (L.map (fun x => x.id) ++ tableKeys (insert_internal t e).2).Perm
          (e.id :: (L.map (fun x => x.id) ++ tableKeys t)) :=
        (List.Perm.append_left _ hkeys1).trans List.perm_middle
      rw [hp.nodup_iff]
      exact List.nodup_cons.mpr ⟨hfresh, hnodup⟩
    obtain ⟨hWF2, hbc2, hec2, hperm2⟩ := ih (insert_internal t e).2 hWF1 hnodup1
    simp only [List.foldl_cons]
    refine ⟨hWF2, by rw [hbc2, hbc1], ?_, ?_⟩
    · rw [hec2, hec1]
      simp only [List.length_cons]
      omega
    exact hperm2.trans <| (List.Perm.append_left L hperm1).trans List.perm_middle

/-- `rehash` preserves the stored records exactly: same node count, same
multiset of records, new bucket count `next_prime (bucket_count * 2)`, and
well-formedness is kept. -/
theorem rehash_spec {t : EmployeeHashTable} (hWF : WF t) :
    WF (rehash t) ∧
    (rehash t).bucket_count = next_prime (t.bucket_count * 2) ∧
    (rehash t).element_count = t.element_count ∧
    ((rehash t).table.flatten).Perm t.table.flatten := by
  obtain ⟨hlen, hbc, hcount, hnodup, hplace⟩ := hWF
  have hfreshWF : WF
      { table := List.replicate (next_prime (t.bucket_count * 2)) [],
        bucket_count := next_prime (t.bucket_count * 2), element_count := 0 } := by
    refine ⟨by simp, next_prime_two_le _, by simp [flatten_replicate_nil], ?_, ?_⟩
    · simp [tableKeys, flatten_replicate_nil]
    · intro i _ e he
      rw [getD_replicate_nil] at he
      exact absurd he (by simp)
  have hnodup2 : (t.table.flatten.map (fun e => e.id) ++ tableKeys
      { table := List.replicate (next_prime (t.bucket_count * 2)) [],
        bucket_count := next_prime (t.bucket_count * 2), element_count := 0 }).Nodup := by
    simpa [tableKeys, flatten_replicate_nil] using hnodup
  obtain ⟨hWF', hbc', hec', hperm'⟩ :=
    foldl_insert_internal_spec t.table.flatten _ hfreshWF hnodup2
  have hre : rehash t = t.table.flatten.foldl (fun acc e => (insert_internal acc e).2)
      { table := List.replicate (next_prime (t.bucket_count * 2)) [],
        bucket_count := next_prime (t.bucket_count * 2), element_count := 0 } := rfl
  rw [hre]
  refine ⟨hWF', by rw [hbc'], ?_, ?_⟩
  · rw [hec', hcount]
    simp
  · simpa [flatten_replicate_nil] using hperm'

end EmployeeHashTable

namespace EmployeeHashTable

/-- In a chain whose keys are pairwise distinct, `find?` returns exactly a
member record when probed with that record's key. -/
theorem chain_find_eq_some {chain : List Employee} {e : Employee}
    (hnd : (chain.map (fun x => x.id)).Nodup) (hmem : e ∈ chain) :
    chain.find? (fun x => x.id == e.id) = some e := by
  induction chain with
  | nil => exact absurd hmem (by simp)
  | cons hd tl ih =>
    simp only [List.map_cons, List.nodup_cons] at hnd
    obtain ⟨hhd, htl⟩ := hnd
    rcases List.mem_cons.mp hmem with rfl | hmemtl
    · exact List.find?_cons_of_pos _ (by simp)
    · have hne : ¬(hd.id == e.id) = true := by
        simp only [beq_iff_eq]
        intro hc
        apply hhd
        rw [hc]
        exact List.mem_map_of_mem _ hmemtl
      have hstep : List.find? (fun x => x.id == e.id) (hd :: tl)
          = List.find? (fun x => x.id == e.id) tl :=
        List.find?_cons_of_neg tl hne
      rw [hstep]
      exact ih htl hmemtl

/-- The key set of any single bucket inherits distinctness from the table. -/
theorem chain_keys_nodup {t : EmployeeHashTable} (hnodup : (tableKeys t).Nodup)
    (i : Nat) : ((t.table.getD i []).map (fun x => x.id)).Nodup := by
  have hsub : (t.table.getD i []).Sublist t.table.flatten := by
    by_cases h : i < t.table.length
    · rw [List.getD_eq_getElem?_getD, List.getElem?_eq_getElem h]
      simpa using List.sublist_flatten_of_mem (List.getElem_mem h)
    · rw [List.getD_eq_default _ _ (by omega)]
      simp
  exact List.Nodup.sublist (hsub.map (fun x => x.id)) hnodup

/-- `find` returns each stored record under its own key. -/
theorem find_mem {t : EmployeeHashTable} {e : Employee} (hWF : WF t)
    (hmem : e ∈ t.table.flatten) : find t e.id = some e := by
  obtain ⟨hlen, hbc, hcount, hnodup, hplace⟩ := hWF
  obtain ⟨i, hi, hchain⟩ := mem_flatten_getD hmem
  have hieq : hashIdx t.bucket_count e.id = i := hplace i hi e hchain
  unfold find
  rw [show hashIdx t.bucket_count e.id = i from hieq]
  exact chain_find_eq_some (chain_keys_nodup hnodup i) hchain

/-- `find` misses exactly the absent keys. -/
theorem find_eq_none {t : EmployeeHashTable} {key : String}
    (h : key ∉ tableKeys t) : find t key = none := by
  unfold find
  rw [List.find?_eq_none]
  intro x hx hpx
  apply h
  have hxid : x.id = key := by simpa using hpx
  rw [← hxid]
  exact List.mem_map_of_mem _ (getD_mem_flatten hx)

/-- A validation failure makes `insert` rethrow with the table untouched. -/
theorem insert_error {t : EmployeeHashTable} {emp : Employee} {err : ValidationError}
    (h : validateEmp emp = .error err) : insert t emp = (.error err, t) := by
  unfold insert
  rw [h]

/-- Inserting a valid record whose key is already stored returns `false`
and leaves the table exactly as it was. -/
theorem insert_duplicate {t : EmployeeHashTable} {emp : Employee} (hWF : WF t)
    (hv : validateEmp emp = .ok ()) (hmem : emp.id ∈ tableKeys t) :
    insert t emp = (.ok false, t) := by
  have hfst : (insert_internal t emp).1 = false :=
    (insert_internal_fst_false_iff hWF).mpr hmem
  have hsnd := insert_internal_snd_of_false hfst
  unfold insert
  rw [hv]
  simp [hfst, hsnd]

/-- Full description of a successful `insert`: the record is added, the
invariant is kept, and the bucket count either stays (load factor still at
most 0.75) or jumps to `next_prime (bucket_count * 2)` (rehash fired). -/
theorem insert_success_spec {t : EmployeeHashTable} {emp : Employee} (hWF : WF t)
    (hv : validateEmp emp = .ok ()) (hfresh : emp.id ∉ tableKeys t) :
    (insert t emp).1 = .ok true ∧
    WF (insert t emp).2 ∧
    ((insert t emp).2.table.flatten).Perm (emp :: t.table.flatten) ∧
    (insert t emp).2.element_count = t.element_count + 1 ∧
    (4 * (t.element_count + 1) ≤ 3 * t.bucket_count →
      (insert t emp).2.bucket_count = t.bucket_count) ∧
    (3 * t.bucket_count < 4 * (t.element_count + 1) →
      (insert t emp).2.bucket_count = next_prime (t.bucket_count * 2)) := by
  have hfst : (insert_internal t emp).1 = true := by
    by_cases hb : (insert_internal t emp).1
    · exact hb
    · exact absurd ((insert_internal_fst_false_iff hWF).mp (by simpa using hb)) hfresh
  obtain ⟨hbc1, hec1, hperm1, hWF1⟩ := insert_internal_true_spec hWF hfst
  by_cases hload : 4 * (insert_internal t emp).2.element_count
      > 3 * (insert_internal t emp).2.bucket_count
  · have hres : insert t emp = (.ok true, rehash (insert_internal t emp).2) := by
      unfold insert
      rw [hv]
      simp [hfst, hload]
    obtain ⟨hWF2, hbc2, hec2, hperm2⟩ := rehash_spec hWF1
    rw [hres]
    refine ⟨rfl, hWF2, hperm2.trans hperm1, by rw [hec2, hec1], ?_, ?_⟩
    · intro hc
      rw [hec1, hbc1] at hload
      omega
    · intro _
      rw [hbc2, hbc1]
  · have hres : insert t emp = (.ok true, (insert_internal t emp).2) := by
      unfold insert
      rw [hv]
      simp [hfst, hload]
    rw [hres]
    refine ⟨rfl, hWF1, hperm1, hec1, fun _ => hbc1, ?_⟩
    intro hc
    rw [hec1, hbc1] at hload
    omega

/-- One public `insert` keeps both the representation invariant and the
load-factor bound `element_count / bucket_count ≤ 3/4`. -/
theorem insert_preserves_inv {t : EmployeeHashTable} (emp : Employee) (hWF : WF t)
    (hload : 4 * t.element_count ≤ 3 * t.bucket_count) :
    WF (insert t emp).2 ∧
    4 * (insert t emp).2.element_count ≤ 3 * (insert t emp).2.bucket_count := by
  match hv : validateEmp emp with
  | .error err =>
    rw [insert_error hv]
    exact ⟨hWF, hload⟩
  | .ok () =>
    by_cases hmem : emp.id ∈ tableKeys t
    · rw [insert_duplicate hWF hv hmem]
      exact ⟨hWF, hload⟩
    · obtain ⟨hbc2, hWF2, hperm2, hec2, hstay, hgrow⟩ := insert_success_spec hWF hv hmem
      refine ⟨hWF2, ?_⟩
      by_cases hsmall : 4 * (t.element_count + 1) ≤ 3 * t.bucket_count
      · rw [hec2, hstay hsmall]
        exact hsmall
      · have hbig : 3 * t.bucket_count < 4 * (t.element_count + 1) := by omega
        rw [hec2, hgrow hbig]
        have hnp : t.bucket_count * 2 ≤ next_prime (t.bucket_count * 2) :=
          le_next_prime _
        have hb2 : 2 ≤ t.bucket_count := hWF.2.1
        omega

end EmployeeHashTable

namespace EmployeeHashTable

theorem updateChain_not_found {key : String} {new_emp : Employee} :
    ∀ {chain : List Employee}, (∀ x ∈ chain, x.id ≠ key) →
      updateChain key new_emp chain = .ok (false, chain) := by
  intro chain
  induction chain with
  | nil => intro _; rfl
  | cons hd tl ih =>
    intro hnone
    have hne : ¬(hd.id == key) = true := by
      simpa using hnone hd (by simp)
    unfold updateChain
    simp only [hne]
    rw [ih (fun x hx => hnone x (List.mem_cons_of_mem hd hx))]
    rfl

theorem updateChain_error {key : String} {new_emp : Employee} {err : ValidationError}
    (hv : validateEmp new_emp = .error err) :
    ∀ {chain : List Employee}, (∃ x ∈ chain, x.id = key) →
      updateChain key new_emp chain = .error err := by
  intro chain
  induction chain with
  | nil => intro h; simp at h
  | cons hd tl ih =>
    intro hex
    by_cases hhd : (hd.id == key) = true
    · unfold updateChain
      simp only [hhd, if_true]
      rw [hv]
    · have hextl : ∃ x ∈ tl, x.id = key := by
        obtain ⟨x, hx, hxid⟩ := hex
        rcases List.mem_cons.mp hx with rfl | hxtl
        · exact absurd (by simpa using hxid) hhd
        · exact ⟨x, hxtl, hxid⟩
      unfold updateChain
      simp only [hhd, if_false]
      rw [ih hextl]
      rfl

/-- At the first node carrying the key, `updateChain` overwrites the stored
record wholesale with the (valid) new record; if the new record carries a
different id, no node with the old key remains in the chain. -/
theorem updateChain_found_spec {key : String} {new_emp : Employee}
    (hv : validateEmp new_emp = .ok ()) :
    ∀ {chain : List Employee}, (chain.map (fun x => x.id)).Nodup →
      (∃ x ∈ chain, x.id = key) →
      ∃ chain2, updateChain key new_emp chain = .ok (true, chain2) ∧
        chain2.length = chain.length ∧
        (new_emp.id ≠ key → ∀ x ∈ chain2, x.id ≠ key) := by
  intro chain
  induction chain with
  | nil => intro _ h; simp at h
  | cons hd tl ih =>
    intro hnd hex
    simp only [List.map_cons, List.nodup_cons] at hnd
    obtain ⟨hhdfresh, htlnd⟩ := hnd
    by_cases hhd : (hd.id == key) = true
    · refine ⟨new_emp :: tl, ?_, by simp, ?_⟩
      · unfold updateChain
        simp only [hhd, if_true]
        rw [hv]
      · intro hne x hx
        rcases List.mem_cons.mp hx with rfl | hxtl
        · exact hne
        · intro hc
          apply hhdfresh
          have : hd.id = key := by simpa using hhd
          rw [this, ← hc]
          exact List.mem_map_of_mem _ hxtl
    · have hextl : ∃ x ∈ tl, x.id = key := by
        obtain ⟨x, hx, hxid⟩ := hex
        rcases List.mem_cons.mp hx with rfl | hxtl
        · exact absurd (by simpa using hxid) hhd
        · exact ⟨x, hxtl, hxid⟩
      obtain ⟨chain2, heq, hlen, hprop⟩ := ih htlnd hextl
      refine ⟨hd :: chain2, ?_, by simpa using hlen, ?_⟩
      · unfold updateChain
        simp only [hhd, if_false]
        rw [heq]
        rfl
      · intro hne x hx
        rcases List.mem_cons.mp hx with rfl | hx2
        · simpa using hhd
        · exact hprop hne x hx2

/-- The key present in a well-formed table is present in its home chain. -/
theorem mem_home_chain {t : EmployeeHashTable} {key : String} (hWF : WF t)
    (hmem : key ∈ tableKeys t) :
    ∃ x ∈ t.table.getD (hashIdx t.bucket_count key) [], x.id = key := by
  obtain ⟨hlen, hbc, hcount, hnodup, hplace⟩ := hWF
  obtain ⟨e, hemem, heid⟩ := List.mem_map.mp hmem
  obtain ⟨i, hi, hgetD⟩ := mem_flatten_getD hemem
  have hieq : hashIdx t.bucket_count e.id = i := hplace i hi e hgetD
  refine ⟨e, ?_, heid⟩
  rw [← heid, hieq]
  exact hgetD

/-- `update` on an absent key returns `false` and leaves the table intact
(no validation of the new record takes place on this path). -/
theorem update_not_found {t : EmployeeHashTable} {key : String}
    (new_emp : Employee) (hWF : WF t) (h : key ∉ tableKeys t) :
    update t key new_emp = (.ok false, t) := by
  have hchain : ∀ x ∈ t.table.getD (hashIdx t.bucket_count key) [], x.id ≠ key := by
    intro x hx hc
    apply h
    rw [← hc]
    exact List.mem_map_of_mem _ (getD_mem_flatten hx)
  have hidx : hashIdx t.bucket_count key < t.table.length := by
    rw [hWF.1]
    exact hashIdx_lt (by have := hWF.2.1; omega) key
  have hres : update t key new_emp =
      (.ok false,
        { t with
          table := t.table.set (hashIdx t.bucket_count key)
            (t.table.getD (hashIdx t.bucket_count key) []) }) := by
    simp only [update, updateChain_not_found hchain]
  rw [hres, set_getD_self _ _ _ hidx]

/-- `update` on a present key with an invalid record rethrows the
validation error and leaves the table untouched. -/
theorem update_error {t : EmployeeHashTable} {key : String} {new_emp : Employee}
    {err : ValidationError} (hWF : WF t) (hv : validateEmp new_emp = .error err)
    (hmem : key ∈ tableKeys t) : update t key new_emp = (.error err, t) := by
  simp only [update, updateChain_error hv (mem_home_chain hWF hmem)]

/-- `update` on a present key with a valid record succeeds, keeps
`element_count`, and — when the new record carries a different id — makes
the old key unreachable through `find`. -/
theorem update_found_spec {t : EmployeeHashTable} {key : String} {new_emp : Employee}
    (hWF : WF t) (hv : validateEmp new_emp = .ok ()) (hmem : key ∈ tableKeys t) :
    (update t key new_emp).1 = .ok true ∧
    (update t key new_emp).2.element_count = t.element_count ∧
    (new_emp.id ≠ key → find (update t key new_emp).2 key = none) := by
  obtain ⟨chain2, heq, hlen2, hprop⟩ :=
    updateChain_found_spec hv (chain_keys_nodup hWF.2.2.2.1 _) (mem_home_chain hWF hmem)
  have hidx : hashIdx t.bucket_count key < t.table.length := by
    rw [hWF.1]
    exact hashIdx_lt (by have := hWF.2.1; omega) key
  have hres : update t key new_emp =
      (.ok true,
        { t with table := t.table.set (hashIdx t.bucket_count key) chain2 }) := by
    simp only [update, heq]
  rw [hres]
  refine ⟨rfl, rfl, ?_⟩
  intro hne
  unfold find
  rw [List.find?_eq_none]
  intro x hx hpx
  have hxid : x.id = key := by simpa using hpx
  have hx2 : x ∈ chain2 := by
    have hg : ({ t with table := t.table.set (hashIdx t.bucket_count key) chain2 }
        : EmployeeHashTable).table.getD
          (hashIdx t.bucket_count key) [] = chain2 :=
      getD_set_self _ _ _ _ hidx
    rw [hg] at hx
    exact hx
  exact hprop hne x hx2 hxid

theorem matches_default (emp : Employee) : matchesCriteria {} emp = true := rfl

/-- `search` with empty criteria copies out every stored record. -/
theorem search_empty (t : EmployeeHashTable) : search t {} = t.table.flatten := by
  unfold search
  exact List.filter_eq_self.mpr (fun a _ => matches_default a)

/-- Folding public inserts preserves well-formedness and the load bound. -/
theorem applyInserts_inv {emps : List Employee} : ∀ {t : EmployeeHashTable},
    WF t → 4 * t.element_count ≤ 3 * t.bucket_count →
    WF (applyInserts t emps) ∧
      4 * (applyInserts t emps).element_count
        ≤ 3 * (applyInserts t emps).bucket_count := by
  induction emps with
  | nil => intro t h1 h2; exact ⟨h1, h2⟩
  | cons e emps ih =>
    intro t h1 h2
    obtain ⟨h1', h2'⟩ := insert_preserves_inv e h1 h2
    simp only [applyInserts, List.foldl_cons]
    exact ih h1' h2'

end EmployeeHashTable

namespace EmployeeHashTable

theorem insert_internal_bc (t : EmployeeHashTable) (e : Employee) :
    (insert_internal t e).2.bucket_count = t.bucket_count := by
  show (if ((t.table.getD (hashIdx t.bucket_count e.id) []).any
        (fun x => x.id == e.id)) = true
      then (false, t)
      else (true,
        { t with
          table := t.table.set (hashIdx t.bucket_count e.id)
            (e :: t.table.getD (hashIdx t.bucket_count e.id) []),
          element_count := t.element_count + 1 })).2.bucket_count = t.bucket_count
  by_cases h : ((t.table.getD (hashIdx t.bucket_count e.id) []).any
      (fun x => x.id == e.id)) = true
  · rw [if_pos h]
  · rw [if_neg h]

theorem foldl_insert_internal_bc (L : List Employee) (t : EmployeeHashTable) :
    (L.foldl (fun acc e => (insert_internal acc e).2) t).bucket_count
      = t.bucket_count := by
  induction L generalizing t with
  | nil => rfl
  | cons e L ih =>
    simp only [List.foldl_cons]
    rw [ih, insert_internal_bc]

/-- The new bucket count of any `rehash`, from any state. -/
theorem rehash_bc (t : EmployeeHashTable) :
    (rehash t).bucket_count = next_prime (t.bucket_count * 2) := by
  unfold rehash
  rw [foldl_insert_internal_bc]

/-- As long as the final count stays within the load bound, a run of
public inserts of fresh valid records never triggers a rehash: the bucket
count is unchanged and every record is added. -/
theorem applyInserts_no_rehash {emps : List Employee} : ∀ {t : EmployeeHashTable},
    WF t →
    4 * (t.element_count + emps.length) ≤ 3 * t.bucket_count →
    (emps.map (fun e => e.id) ++ tableKeys t).Nodup →
    (∀ e ∈ emps, validateEmp e = .ok ()) →
    WF (applyInserts t emps) ∧
    (applyInserts t emps).bucket_count = t.bucket_count ∧
    (applyInserts t emps).element_count = t.element_count + emps.length ∧
    ((applyInserts t emps).table.flatten).Perm (emps ++ t.table.flatten) := by
  induction emps with
  | nil =>
    intro t hWF _ _ _
    exact ⟨hWF, rfl, rfl, List.Perm.refl _⟩
  | cons e emps ih =>
    intro t hWF hload hnodup hval
    simp only [List.map_cons, List.cons_append, List.nodup_cons] at hnodup
    obtain ⟨hfresh, hnodup⟩ := hnodup
    have hfresh' : e.id ∉ tableKeys t := fun hc => hfresh (List.mem_append_right _ hc)
    have hv : validateEmp e = .ok () := hval e (by simp)
    obtain ⟨hfst, hWF1, hperm1, hec1, hstay, _⟩ := insert_success_spec hWF hv hfresh'
    have hbc1 : (insert t e).2.bucket_count = t.bucket_count := by
      apply hstay
      simp only [List.length_cons] at hload
      omega
    have hkeys1 : (tableKeys (insert t e).2).Perm (e.id :: tableKeys t) := by
      unfold tableKeys
      simpa using List.Perm.map (fun x => x.id) hperm1
    have hnodup1 : (emps.map (fun x => x.id) ++ tableKeys (insert t e).2).Nodup := by
      have hp : (emps.map (fun x => x.id) ++ tableKeys (insert t e).2).Perm
          (e.id :: (emps.map (fun x => x.id) ++ tableKeys t)) :=
        (List.Perm.append_left _ hkeys1).trans List.perm_middle
      rw [hp.nodup_iff]
      exact List.nodup_cons.mpr ⟨hfresh, hnodup⟩
    have hload1 : 4 * ((insert t e).2.element_count + emps.length)
        ≤ 3 * (insert t e).2.bucket_count := by
      rw [hec1, hbc1]
      simp only [List.length_cons] at hload
      omega
    obtain ⟨hWF2, hbc2, hec2, hperm2⟩ :=
      ih hWF1 hload1 hnodup1 (fun x hx => hval x (List.mem_cons_of_mem e hx))
    simp only [applyInserts, List.foldl_cons] at hWF2 hbc2 hec2 hperm2 ⊢
    refine ⟨hWF2, hbc2.trans hbc1, ?_, ?_⟩
    · rw [hec2, hec1]
      simp only [List.length_cons]
      omega
    · exact hperm2.trans <| (List.Perm.append_left emps hperm1).trans List.perm_middle

end EmployeeHashTable

/-! ### The claims -/

namespace EmployeeHashTable

/-- Claim C1: for every sequence of insert calls on a freshly constructed
table, after each insert returns the resting state satisfies
`element_count / bucket_count ≤ 0.75`; the synchronous rehash inside
`insert` restores the bound before `insert` returns, so it is never
violated as a resting state (sequences with failed inserts leave the state
unchanged at those steps, so all sequences of successful inserts are
covered). -/
theorem c1_load_factor_bound (initial : Nat) (emps : List Employee) :
    4 * (applyInserts (mkTable initial) emps).element_count
      ≤ 3 * (applyInserts (mkTable initial) emps).bucket_count ∧
    ((applyInserts (mkTable initial) emps).element_count : ℚ)
      / ((applyInserts (mkTable initial) emps).bucket_count : ℚ) ≤ 3 / 4 := by
  have h0 : 4 * (mkTable initial).element_count
      ≤ 3 * (mkTable initial).bucket_count := by
    have hz : (mkTable initial).element_count = 0 := rfl
    omega
  obtain ⟨hWF, hload⟩ := applyInserts_inv (WF_mkTable initial) h0
  refine ⟨hload, ?_⟩
  have hbcpos : 0 < (applyInserts (mkTable initial) emps).bucket_count := by
    have h2 := hWF.2.1
    omega
  have hpos : (0 : ℚ) < ((applyInserts (mkTable initial) emps).bucket_count : ℚ) := by
    exact_mod_cast hbcpos
  rw [div_le_div_iff₀ hpos (by norm_num)]
  have hN : (applyInserts (mkTable initial) emps).element_count * 4
      ≤ 3 * (applyInserts (mkTable initial) emps).bucket_count := by omega
  exact_mod_cast hN

/-- Claim C3: a rehash preserves the multiset of stored records exactly —
hence the multiset of keys and the record contents attached to each key —
and `element_count` is unchanged: only `bucket_count` (set to
`next_prime (2 * bucket_count)`) and node placement change. -/
theorem c3_rehash_preserves_contents (t : EmployeeHashTable) (hWF : WF t) :
    ((rehash t).table.flatten).Perm t.table.flatten ∧
    (tableKeys (rehash t)).Perm (tableKeys t) ∧
    (rehash t).element_count = t.element_count ∧
    (rehash t).bucket_count = next_prime (2 * t.bucket_count) := by
  obtain ⟨_, hbc', hec', hperm'⟩ := rehash_spec hWF
  refine ⟨hperm', ?_, hec', by rw [hbc', Nat.mul_comm]⟩
  unfold tableKeys
  exact hperm'.map _

theorem c3_rehash_preserves_contents_witness :
    WF exTable ∧ ((rehash exTable).table.flatten).Perm exTable.table.flatten :=
  ⟨by decide, (c3_rehash_preserves_contents exTable (by decide)).1⟩

/-- Claim C5: `bucket_count` is prime at all times: the constructor rounds
any requested capacity up to the smallest prime that is at least the
request, and every rehash sets it to `next_prime (2 * bucket_count)`,
again a prime. -/
theorem c5_bucket_count_prime (n : Nat) (t : EmployeeHashTable) :
    Nat.Prime (mkTable n).bucket_count ∧
    (mkTable n).bucket_count = sInf {p : Nat | n ≤ p ∧ Nat.Prime p} ∧
    Nat.Prime (rehash t).bucket_count ∧
    (rehash t).bucket_count = next_prime (2 * t.bucket_count) := by
  obtain ⟨hp, hge, hmin⟩ := next_prime_spec n
  have hbceq : (mkTable n).bucket_count = next_prime n := rfl
  refine ⟨by rw [hbceq]; exact hp, ?_, ?_, ?_⟩
  · rw [hbceq]
    have hmem : next_prime n ∈ {p : Nat | n ≤ p ∧ Nat.Prime p} := ⟨hge, hp⟩
    have hSle : sInf {p : Nat | n ≤ p ∧ Nat.Prime p} ≤ next_prime n :=
      Nat.sInf_le hmem
    have hSmem : sInf {p : Nat | n ≤ p ∧ Nat.Prime p}
        ∈ {p : Nat | n ≤ p ∧ Nat.Prime p} := Nat.sInf_mem ⟨_, hmem⟩
    have hle2 : next_prime n ≤ sInf {p : Nat | n ≤ p ∧ Nat.Prime p} :=
      hmin _ hSmem.1 hSmem.2
    omega
  · rw [rehash_bc]
    exact (next_prime_spec _).1
  · rw [rehash_bc, Nat.mul_comm]

end EmployeeHashTable

namespace EmployeeHashTable

/-- Claim C2 is refuted on the code: `update` searches for the key first
and validates only at a matching node.  On a table that does not contain
the key, `update` with an invalid record returns plain `false` — not the
`ValidationError` the claim requires for every invalid record. -/
theorem c2_update_validation_counterexample :
    validateEmp badEmp = .error .invalidID ∧
    update (mkTable 17) empA.id badEmp = (.ok false, mkTable 17) := by
  constructor
  · decide
  · decide

/-- Claim C2 (amended): `update` validates the new record only after
locating the key.  When the key is present, an invalid record makes
`update` return the `ValidationError` with the existing record and all
table state untouched; when the key is absent, `update` returns `false`
without performing validation, whatever the record. -/
theorem c2_update_validation_amended (t : EmployeeHashTable) (key : String)
    (new_emp : Employee) (err : ValidationError) (hWF : WF t) :
    (key ∈ tableKeys t → validateEmp new_emp = .error err →
      update t key new_emp = (.error err, t)) ∧
    (key ∉ tableKeys t → update t key new_emp = (.ok false, t)) :=
  ⟨fun hmem hv => update_error hWF hv hmem,
   fun habs => update_not_found new_emp hWF habs⟩

theorem c2_update_validation_amended_witness :
    WF exTable ∧ empA.id ∈ tableKeys exTable ∧
    validateEmp badEmp = .error .invalidID ∧
    update exTable empA.id badEmp = (.error .invalidID, exTable) :=
  ⟨by decide, by decide, by decide,
   (c2_update_validation_amended exTable empA.id badEmp .invalidID
      (by decide)).1 (by decide) (by decide)⟩

/-- Claim C6: inserting a valid record whose key is already stored returns
`false` and performs no mutation: the table is returned exactly as it was,
so `size()` and every stored record are unchanged, and a subsequent `find`
on that key still returns the originally stored record, not the rejected
duplicate. -/
theorem c6_duplicate_insert_frame (t : EmployeeHashTable) (emp orig : Employee)
    (hWF : WF t) (hv : validateEmp emp = .ok ())
    (hfind : find t emp.id = some orig) :
    insert t emp = (.ok false, t) ∧
    size (insert t emp).2 = size t ∧
    find (insert t emp).2 emp.id = some orig := by
  have horigmem : orig ∈ t.table.getD (hashIdx t.bucket_count emp.id) [] :=
    List.mem_of_find?_eq_some hfind
  have horigid : orig.id = emp.id := by
    have := List.find?_some hfind
    simpa using this
  have hmem : emp.id ∈ tableKeys t := by
    rw [← horigid]
    exact List.mem_map_of_mem _ (getD_mem_flatten horigmem)
  have hdup := insert_duplicate hWF hv hmem
  refine ⟨hdup, by rw [hdup], by rw [hdup]; exact hfind⟩

theorem c6_duplicate_insert_frame_witness :
    WF exTable ∧ validateEmp empA2 = .ok () ∧
    find exTable empA2.id = some empA ∧
    insert exTable empA2 = (.ok false, exTable) ∧
    find (insert exTable empA2).2 empA2.id = some empA :=
  ⟨by decide, by decide, by decide,
   (c6_duplicate_insert_frame exTable empA2 empA (by decide) (by decide)
      (by decide)).1,
   (c6_duplicate_insert_frame exTable empA2 empA (by decide) (by decide)
      (by decide)).2.2⟩

/-- Claim C7: whenever `insert` accepts a record (returns `true`), an
immediately following `find` on that record's key returns a record equal
to the inserted one in all fields. -/
theorem c7_insert_find_roundtrip (t : EmployeeHashTable) (emp : Employee)
    (hWF : WF t) (hok : (insert t emp).1 = .ok true) :
    find (insert t emp).2 emp.id = some emp := by
  match hv : validateEmp emp with
  | .error err =>
    rw [insert_error hv] at hok
    exact absurd hok (by simp)
  | .ok () =>
    by_cases hmem : emp.id ∈ tableKeys t
    · rw [insert_duplicate hWF hv hmem] at hok
      exact absurd hok (by simp)
    · obtain ⟨_, hWF2, hperm2, _, _, _⟩ := insert_success_spec hWF hv hmem
      have hmem2 : emp ∈ (insert t emp).2.table.flatten :=
        hperm2.mem_iff.mpr (by simp)
      exact find_mem hWF2 hmem2

theorem c7_insert_find_roundtrip_witness :
    WF exTable0 ∧ (insert exTable0 empA).1 = .ok true ∧
    find (insert exTable0 empA).2 empA.id = some empA :=
  ⟨by decide, by decide,
   c7_insert_find_roundtrip exTable0 empA (by decide) (by decide)⟩

/-- Claim C8: `search` with empty criteria (no predicate set) returns one
copy of every stored record — exactly `size()` records — and coincides
with `get_all()`. -/
theorem c8_search_empty_criteria (t : EmployeeHashTable) (hWF : WF t) :
    search t {} = get_all t ∧
    (search t {}).length = size t ∧
    search t {} = t.table.flatten := by
  refine ⟨rfl, ?_, search_empty t⟩
  rw [search_empty t]
  exact hWF.2.2.1.symm

theorem c8_search_empty_criteria_witness :
    WF exTable ∧ search exTable {} = get_all exTable ∧
    (search exTable {}).length = size exTable :=
  ⟨by decide, (c8_search_empty_criteria exTable (by decide)).1,
   (c8_search_empty_criteria exTable (by decide)).2.1⟩

/-- Claim C9: when a record with the given key is present and the valid
new record carries a different id, `update` returns `true`, `size()` is
unchanged, and a subsequent `find` on the old key returns nothing: the
node kept its bucket placement computed from the old key while its stored
key was replaced wholesale, so the record is unreachable by the old key. -/
theorem c9_update_key_mismatch_unreachable (t : EmployeeHashTable)
    (key : String) (new_emp : Employee) (hWF : WF t)
    (hv : validateEmp new_emp = .ok ()) (hne : new_emp.id ≠ key)
    (hmem : key ∈ tableKeys t) :
    (update t key new_emp).1 = .ok true ∧
    size (update t key new_emp).2 = size t ∧
    find (update t key new_emp).2 key = none := by
  obtain ⟨h1, h2, h3⟩ := update_found_spec hWF hv hmem
  exact ⟨h1, h2, h3 hne⟩

theorem c9_update_key_mismatch_unreachable_witness :
    WF exTable ∧ validateEmp empC = .ok () ∧ empC.id ≠ empA.id ∧
    empA.id ∈ tableKeys exTable ∧
    (update exTable empA.id empC).1 = .ok true ∧
    find (update exTable empA.id empC).2 empA.id = none :=
  ⟨by decide, by decide, by decide, by decide,
   (c9_update_key_mismatch_unreachable exTable empA.id empC (by decide)
      (by decide) (by decide) (by decide)).1,
   (c9_update_key_mismatch_unreachable exTable empA.id empC (by decide)
      (by decide) (by decide) (by decide)).2.2⟩

end EmployeeHashTable

namespace EmployeeHashTable

/-- Claim C4: constructing the table with initial bucket count 17 (already
prime) and inserting 13 distinct valid records leaves
`bucket_count = next_prime(34) = 37` after the 13th insert returns
(`13/17 > 0.75` fires the one rehash; `12/17 ≤ 0.75` means none fired
earlier), and `find` succeeds on every one of the 13 inserted keys. -/
theorem c4_growth_scenario (emps : List Employee) (hlen : emps.length = 13)
    (hnd : (emps.map (fun e => e.id)).Nodup)
    (hval : ∀ e ∈ emps, validateEmp e = .ok ()) :
    (applyInserts (mkTable 17) emps).bucket_count = 37 ∧
    ∀ e ∈ emps, (find (applyInserts (mkTable 17) emps) e.id).isSome := by
  have hsplit : emps.take 12 ++ emps.drop 12 = emps := List.take_append_drop 12 emps
  have hlen12 : (emps.take 12).length = 12 := by
    rw [List.length_take, hlen]
    decide
  have hdlen : (emps.drop 12).length = 1 := by
    rw [List.length_drop, hlen]
  obtain ⟨e13, hd13⟩ : ∃ x, emps.drop 12 = [x] := by
    cases hm : emps.drop 12 with
    | nil => rw [hm] at hdlen; simp at hdlen
    | cons x xs =>
      cases hxs : xs with
      | nil => exact ⟨x, rfl⟩
      | cons y r => rw [hm, hxs] at hdlen; simp at hdlen
  have hsplit2 : emps.take 12 ++ [e13] = emps := by
    rw [← hd13]
    exact hsplit
  have hkeys0 : tableKeys (mkTable 17) = [] := by decide
  have hnd12 : ((emps.take 12).map (fun e => e.id)).Nodup := by
    rw [List.map_take]
    exact List.Nodup.sublist (List.take_sublist _ _) hnd
  obtain ⟨hWF12, hbc12, hec12, hperm12⟩ :=
    @applyInserts_no_rehash (emps.take 12) (mkTable 17) (WF_mkTable 17)
      (by rw [hlen12]; decide)
      (by rw [hkeys0, List.append_nil]; exact hnd12)
      (fun e he => hval e (List.mem_of_mem_take he))
  have hbc12' : (applyInserts (mkTable 17) (emps.take 12)).bucket_count = 17 := by
    rw [hbc12]
    decide
  have hec12' : (applyInserts (mkTable 17) (emps.take 12)).element_count = 12 := by
    rw [hec12, hlen12]
    decide
  have he13mem : e13 ∈ emps := by
    rw [← hsplit2]
    simp
  have hv13 : validateEmp e13 = .ok () := hval e13 he13mem
  have hflat0 : (mkTable 17).table.flatten = [] := flatten_replicate_nil _
  have hpermk : (tableKeys (applyInserts (mkTable 17) (emps.take 12))).Perm
      ((emps.take 12).map (fun e => e.id)) := by
    unfold tableKeys
    have hm := List.Perm.map (fun e : Employee => e.id) hperm12
    rw [hflat0] at hm
    simpa using hm
  have hmapsplit : emps.map (fun e => e.id)
      = (emps.take 12).map (fun e => e.id) ++ [e13.id] := by
    conv_lhs => rw [← hsplit2]
    rw [List.map_append]
    rfl
  have hnd2 : ((emps.take 12).map (fun e => e.id) ++ [e13.id]).Nodup := by
    rw [← hmapsplit]
    exact hnd
  have hfresh13 : e13.id ∉ tableKeys (applyInserts (mkTable 17) (emps.take 12)) := by
    intro hc
    have hc2 : e13.id ∈ (emps.take 12).map (fun e => e.id) := hpermk.mem_iff.mp hc
    exact (List.nodup_append.mp hnd2).2.2 hc2 (by simp)
  obtain ⟨_, hWFf, hpermf, _, _, hgrow⟩ :=
    insert_success_spec hWF12 hv13 hfresh13
  have happ : applyInserts (mkTable 17) emps
      = (insert (applyInserts (mkTable 17) (emps.take 12)) e13).2 := by
    conv_lhs => rw [← hsplit2]
    simp only [applyInserts, List.foldl_append, List.foldl_cons, List.foldl_nil]
  have hbcf : (insert (applyInserts (mkTable 17) (emps.take 12)) e13).2.bucket_count
      = 37 := by
    rw [hgrow (by rw [hec12', hbc12']; decide), hbc12']
    decide
  refine ⟨by rw [happ]; exact hbcf, ?_⟩
  intro e he
  have hflat12 : ((applyInserts (mkTable 17) (emps.take 12)).table.flatten).Perm
      (emps.take 12) := by
    rw [hflat0] at hperm12
    simpa using hperm12
  have hmemf : e ∈ (insert (applyInserts (mkTable 17) (emps.take 12)) e13).2.table.flatten := by
    rw [hpermf.mem_iff]
    have he' : e ∈ emps.take 12 ++ [e13] := by
      rw [hsplit2]
      exact he
    rcases List.mem_append.mp he' with h | h
    · exact List.mem_cons_of_mem _ (hflat12.mem_iff.mpr h)
    · simp only [List.mem_singleton] at h
      rw [h]
      exact List.mem_cons_self _ _
  rw [happ, find_mem hWFf hmemf]
  rfl

theorem c4_growth_scenario_witness :
    emps13.length = 13 ∧ (emps13.map (fun e => e.id)).Nodup ∧
    (∀ e ∈ emps13, validateEmp e = .ok ()) ∧
    (applyInserts (mkTable 17) emps13).bucket_count = 37 ∧
    ∀ e ∈ emps13, (find (applyInserts (mkTable 17) emps13) e.id).isSome :=
  ⟨by decide, by decide, by decide,
   (c4_growth_scenario emps13 (by decide) (by decide) (by decide)).1,
   (c4_growth_scenario emps13 (by decide) (by decide) (by decide)).2⟩

end EmployeeHashTable

/-- Claim C10 is refuted on the code: `load_factor` (src/main.cpp lines
543-545) constructs no `lock_guard`, unlike every other public member
function in the claim's list — it cannot, because `insert` calls
`load_factor()` while already holding the non-recursive `table_mutex`.
So not every listed public operation acquires the lock. -/
theorem c10_lock_counterexample :
    acquiresTableLock TableOp.loadFactorOp = false := rfl

/-- Claim C10 (amended): every public operation of the table except
`load_factor` — insert, remove, find, update, search, size, statistics —
acquires the single exclusive `table_mutex` for its full duration (the
rehash triggered inside `insert` runs within `insert`'s critical section),
while `load_factor` reads `element_count` and `bucket_count` without
acquiring the lock. -/
theorem c10_lock_acquisition_amended (op : TableOp)
    (h : op ≠ TableOp.loadFactorOp) : acquiresTableLock op = true := by
  cases op <;> first | rfl | exact absurd rfl h

theorem c10_lock_acquisition_amended_witness :
    TableOp.insertOp ≠ TableOp.loadFactorOp ∧
    acquiresTableLock TableOp.insertOp = true :=
  ⟨by decide, c10_lock_acquisition_amended TableOp.insertOp (by decide)⟩
